import Mathlib

/-!
Verification of the waveform-rendering core (`src/core.rs`) of the
sound-wave-image repository.

The development embeds the source shallowly:

* IEEE-754 single precision (`f32`) is modelled exactly over `ℚ`:
  `fl` is round-to-nearest, ties-to-even, with a 24-bit significand
  (exponents unbounded below, which is faithful for all magnitudes
  appearing here — no subnormal results occur); the extended type `EF`
  adds the infinities and NaN and the arithmetic on them, with finite
  results rounded by `fl` and overflowing to the infinities at `2^128`.
* Rust's saturating `as i32` cast (NaN to 0) is `i32cast`; the `as usize`
  and `as u32` casts on the nonnegative in-range values used here
  agree with it.
* `find_highest_sample` is the source's generic scan, instantiated at
  exact rationals; all concrete inputs used in theorems below are
  exactly representable in `f32`, so the instantiation agrees with the
  `f32` instance exercised by the repository.
* The drawing primitive of the external `imageproc` crate is modelled
  from the spec (see `drawVSeg`); everything else is read off the
  source.
-/

namespace SoundWave

/-- Round a rational to the nearest integer, ties to even. -/
def rne (q : ℚ) : ℤ :=
  if q - ⌊q⌋ < 1/2 then ⌊q⌋
  else if 1/2 < q - ⌊q⌋ then ⌊q⌋ + 1
  else if ⌊q⌋ % 2 = 0 then ⌊q⌋ else ⌊q⌋ + 1

/-- Round a nonnegative rational to the nearest `f32` value
(24-bit significand, round to nearest, ties to even). -/
def flPos (a : ℚ) : ℚ :=
  if a = 0 then 0
  else ((rne (a * 2 ^ (23 - Int.log 2 a)) : ℤ) : ℚ) * 2 ^ (Int.log 2 a - 23)

/-- Round a rational to the nearest `f32` value. -/
def fl (q : ℚ) : ℚ := if q < 0 then -flPos (-q) else flPos q

theorem rne_intCast (n : ℤ) : rne (n : ℚ) = n := by
  unfold rne
  rw [Int.floor_intCast]
  norm_num

theorem floor_le_rne (q : ℚ) : ⌊q⌋ ≤ rne q := by
  unfold rne
  split_ifs <;> omega

theorem rne_le_floor_add_one (q : ℚ) : rne q ≤ ⌊q⌋ + 1 := by
  unfold rne
  split_ifs <;> omega

theorem rne_mono {a b : ℚ} (h : a ≤ b) : rne a ≤ rne b := by
  have hab : ⌊a⌋ ≤ ⌊b⌋ := Int.floor_le_floor h
  rcases lt_or_eq_of_le hab with hlt | heq
  · calc rne a ≤ ⌊a⌋ + 1 := rne_le_floor_add_one a
    _ ≤ ⌊b⌋ := by omega
    _ ≤ rne b := floor_le_rne b
  · have hr : a - (⌊a⌋ : ℚ) ≤ b - (⌊a⌋ : ℚ) := by linarith
    unfold rne
    rw [← heq]
    split_ifs <;> first | omega | linarith

theorem rne_nonneg {q : ℚ} (h : 0 ≤ q) : 0 ≤ rne q := by
  have := floor_le_rne q
  have : (0 : ℤ) ≤ ⌊q⌋ := Int.floor_nonneg.mpr h
  omega

theorem log_eq_of_zpow_le_of_lt {q : ℚ} {e : ℤ} (h1 : 2 ^ e ≤ q)
    (h2 : q < 2 ^ (e + 1)) : Int.log 2 q = e := by
  have hq : 0 < q := lt_of_lt_of_le (zpow_pos two_pos e) h1
  have hb : 1 < (2 : ℕ) := one_lt_two
  refine le_antisymm ?_ ?_
  · have := (Int.lt_zpow_iff_log_lt hb hq).mp (by exact_mod_cast h2)
    omega
  · exact (Int.zpow_le_iff_le_log hb hq).mp (by exact_mod_cast h1)

theorem flPos_eval {a : ℚ} {e m : ℤ} (h1 : 2 ^ e ≤ a) (h2 : a < 2 ^ (e + 1))
    (hm : rne (a * 2 ^ (23 - e)) = m) : flPos a = (m : ℚ) * 2 ^ (e - 23) := by
  have hq : 0 < a := lt_of_lt_of_le (zpow_pos two_pos e) h1
  have hlog : Int.log 2 a = e := log_eq_of_zpow_le_of_lt h1 h2
  unfold flPos
  rw [if_neg (ne_of_gt hq), hlog, hm]

theorem flPos_nonneg {a : ℚ} (h : 0 ≤ a) : 0 ≤ flPos a := by
  unfold flPos
  split_ifs with h0
  · exact le_refl 0
  · have ha : 0 < a := lt_of_le_of_ne h (Ne.symm h0)
    have hm : (0 : ℚ) ≤ a * 2 ^ (23 - Int.log 2 a) :=
      mul_nonneg h (zpow_nonneg (by norm_num) _)
    have := rne_nonneg hm
    exact mul_nonneg (by exact_mod_cast this) (zpow_nonneg (by norm_num) _)

theorem flPos_zero : flPos 0 = 0 := by unfold flPos; simp

theorem fl_of_nonneg {q : ℚ} (h : 0 ≤ q) : fl q = flPos q := by
  unfold fl
  rw [if_neg (not_lt.mpr h)]

theorem fl_nonneg {q : ℚ} (h : 0 ≤ q) : 0 ≤ fl q := by
  rw [fl_of_nonneg h]; exact flPos_nonneg h

theorem fl_zero : fl 0 = 0 := by
  rw [fl_of_nonneg le_rfl, flPos_zero]

/-- `f32` rounding is the identity on exactly representable positive
values `m * 2^k` with `m < 2^24`. -/
theorem flPos_eq_self {m k : ℤ} (h0 : 0 < m) (h24 : m < 2 ^ 24) :
    flPos ((m : ℚ) * 2 ^ k) = (m : ℚ) * 2 ^ k := by
  set a : ℚ := (m : ℚ) * 2 ^ k with ha
  have hapos : 0 < a := mul_pos (by exact_mod_cast h0) (zpow_pos two_pos k)
  set e : ℤ := Int.log 2 a with he
  have h1 : (2 : ℚ) ^ e ≤ a := Int.zpow_log_le_self one_lt_two hapos
  have h2 : a < 2 ^ (e + 1) := Int.lt_zpow_succ_log_self one_lt_two a
  have haub : a < 2 ^ (24 + k) := by
    rw [ha, zpow_add₀ (by norm_num : (2:ℚ) ≠ 0) 24 k]
    have hm : (m : ℚ) < 2 ^ (24 : ℤ) := by exact_mod_cast h24
    exact mul_lt_mul_of_pos_right hm (zpow_pos two_pos k)
  have hek : e ≤ 23 + k := by
    by_contra hcon
    push_neg at hcon
    have h24k : (24 : ℤ) + k ≤ e := by omega
    have : (2 : ℚ) ^ (24 + k) ≤ 2 ^ e :=
      zpow_le_zpow_right₀ one_le_two h24k
    linarith
  have hnn : (0 : ℤ) ≤ 23 + k - e := by omega
  -- the scaled significand is an integer
  have hint : a * 2 ^ (23 - e) = ((m * 2 ^ (23 + k - e).toNat : ℤ) : ℚ) := by
    push_cast
    rw [ha, mul_assoc, ← zpow_natCast (2 : ℚ) (23 + k - e).toNat,
      Int.toNat_of_nonneg hnn, ← zpow_add₀ (by norm_num : (2:ℚ) ≠ 0)]
    congr 2
    omega
  have hrne : rne (a * 2 ^ (23 - e)) = m * 2 ^ (23 + k - e).toNat := by
    rw [hint, rne_intCast]
  rw [flPos_eval h1 h2 hrne]
  push_cast
  rw [mul_assoc, ← zpow_natCast (2 : ℚ) (23 + k - e).toNat,
    Int.toNat_of_nonneg hnn, ← zpow_add₀ (by norm_num : (2:ℚ) ≠ 0), ha]
  congr 2
  omega

theorem fl_eq_self {m k : ℤ} (h0 : 0 ≤ m) (h24 : m < 2 ^ 24) :
    fl ((m : ℚ) * 2 ^ k) = (m : ℚ) * 2 ^ k := by
  rcases eq_or_lt_of_le h0 with h | h
  · rw [← h]; simpa using fl_zero
  · rw [fl_of_nonneg (le_of_lt (mul_pos (by exact_mod_cast h) (zpow_pos two_pos k)))]
    exact flPos_eq_self h h24

theorem fl_natCast {n : ℕ} (h : n ≤ 2 ^ 24) : fl (n : ℚ) = n := by
  rcases eq_or_lt_of_le h with he | hlt
  · rw [he]
    have hcast : ((2 ^ 24 : ℕ) : ℚ) = ((1 : ℤ) : ℚ) * 2 ^ (24 : ℤ) := by
      push_cast; norm_num
    rw [hcast, fl_eq_self (by norm_num) (by norm_num)]
  · have := fl_eq_self (m := (n : ℤ)) (k := 0) (by exact_mod_cast Nat.zero_le n)
      (by exact_mod_cast hlt)
    simpa using this

theorem fl_one : fl 1 = 1 := by
  have h := fl_natCast (n := 1) (by norm_num)
  simpa using h

theorem flPos_lb {a : ℚ} (h : 0 < a) : 2 ^ Int.log 2 a ≤ flPos a := by
  set e : ℤ := Int.log 2 a with he
  have h1 : (2 : ℚ) ^ e ≤ a := Int.zpow_log_le_self one_lt_two h
  have hm : (2 : ℚ) ^ (23 : ℤ) ≤ a * 2 ^ (23 - e) := by
    calc (2 : ℚ) ^ (23 : ℤ) = 2 ^ e * 2 ^ (23 - e) := by
          rw [← zpow_add₀ (by norm_num : (2:ℚ) ≠ 0)]; congr 1; omega
    _ ≤ a * 2 ^ (23 - e) :=
          mul_le_mul_of_nonneg_right h1 (zpow_nonneg (by norm_num) _)
  have hrne : (8388608 : ℤ) ≤ rne (a * 2 ^ (23 - e)) := by
    have hfl : (8388608 : ℤ) ≤ ⌊a * 2 ^ (23 - e)⌋ := by
      apply Int.le_floor.mpr
      calc ((8388608 : ℤ) : ℚ) = (2 : ℚ) ^ (23 : ℤ) := by norm_num
      _ ≤ a * 2 ^ (23 - e) := hm
    have := floor_le_rne (a * 2 ^ (23 - e))
    omega
  unfold flPos
  rw [if_neg (ne_of_gt h), ← he]
  calc (2 : ℚ) ^ e = 8388608 * 2 ^ (e - 23) := by
        rw [show (8388608 : ℚ) = 2 ^ (23 : ℤ) by norm_num,
          ← zpow_add₀ (by norm_num : (2:ℚ) ≠ 0)]
        congr 1; omega
  _ ≤ (rne (a * 2 ^ (23 - e)) : ℚ) * 2 ^ (e - 23) :=
        mul_le_mul_of_nonneg_right (by exact_mod_cast hrne)
          (zpow_nonneg (by norm_num) _)

theorem flPos_ub {a : ℚ} (h : 0 < a) : flPos a ≤ 2 ^ (Int.log 2 a + 1) := by
  set e : ℤ := Int.log 2 a with he
  have h2 : a < 2 ^ (e + 1) := Int.lt_zpow_succ_log_self one_lt_two a
  have hm : a * 2 ^ (23 - e) < (2 : ℚ) ^ (24 : ℤ) := by
    calc a * 2 ^ (23 - e) < 2 ^ (e + 1) * 2 ^ (23 - e) :=
          mul_lt_mul_of_pos_right h2 (zpow_pos two_pos _)
    _ = (2 : ℚ) ^ (24 : ℤ) := by
          rw [← zpow_add₀ (by norm_num : (2:ℚ) ≠ 0)]; congr 1; omega
  have hrne : rne (a * 2 ^ (23 - e)) ≤ 16777216 := by
    have hfl : ⌊a * 2 ^ (23 - e)⌋ ≤ 16777215 := by
      have : ⌊a * 2 ^ (23 - e)⌋ < 16777216 := by
        apply Int.floor_lt.mpr
        calc a * 2 ^ (23 - e) < (2 : ℚ) ^ (24 : ℤ) := hm
        _ = ((16777216 : ℤ) : ℚ) := by norm_num
      omega
    have := rne_le_floor_add_one (a * 2 ^ (23 - e))
    omega
  unfold flPos
  rw [if_neg (ne_of_gt h), ← he]
  calc (rne (a * 2 ^ (23 - e)) : ℚ) * 2 ^ (e - 23)
      ≤ 16777216 * 2 ^ (e - 23) :=
        mul_le_mul_of_nonneg_right (by exact_mod_cast hrne)
          (zpow_nonneg (by norm_num) _)
  _ = 2 ^ (e + 1) := by
        rw [show (16777216 : ℚ) = 2 ^ (24 : ℤ) by norm_num,
          ← zpow_add₀ (by norm_num : (2:ℚ) ≠ 0)]
        congr 1; omega

theorem flPos_mono {a b : ℚ} (ha : 0 ≤ a) (h : a ≤ b) : flPos a ≤ flPos b := by
  rcases eq_or_lt_of_le ha with h0 | hapos
  · rw [← h0, flPos_zero]
    exact flPos_nonneg (le_trans ha h)
  · have hbpos : 0 < b := lt_of_lt_of_le hapos h
    have hlog : Int.log 2 a ≤ Int.log 2 b := Int.log_mono_right hapos h
    rcases eq_or_lt_of_le hlog with heq | hlt
    · unfold flPos
      rw [if_neg (ne_of_gt hapos), if_neg (ne_of_gt hbpos), ← heq]
      apply mul_le_mul_of_nonneg_right _ (zpow_nonneg (by norm_num) _)
      exact_mod_cast rne_mono
        (mul_le_mul_of_nonneg_right h (zpow_nonneg (by norm_num) _))
    · calc flPos a ≤ 2 ^ (Int.log 2 a + 1) := flPos_ub hapos
      _ ≤ 2 ^ Int.log 2 b := zpow_le_zpow_right₀ one_le_two (by omega)
      _ ≤ flPos b := flPos_lb hbpos

theorem fl_mono {a b : ℚ} (ha : 0 ≤ a) (h : a ≤ b) : fl a ≤ fl b := by
  rw [fl_of_nonneg ha, fl_of_nonneg (le_trans ha h)]
  exact flPos_mono ha h

theorem one_le_fl {a : ℚ} (h : 1 ≤ a) : 1 ≤ fl a := by
  calc (1 : ℚ) = fl 1 := fl_one.symm
  _ ≤ fl a := fl_mono (by norm_num) h

theorem fl_le_one {a : ℚ} (h0 : 0 ≤ a) (h : a ≤ 1) : fl a ≤ 1 := by
  calc fl a ≤ fl 1 := fl_mono h0 h
  _ = 1 := fl_one

theorem rne_eq_of_lt {q : ℚ} {f : ℤ} (hf : ⌊q⌋ = f) (h : q - f < 1/2) :
    rne q = f := by
  unfold rne
  rw [hf, if_pos h]

theorem rne_eq_of_gt {q : ℚ} {f : ℤ} (hf : ⌊q⌋ = f) (h : 1/2 < q - f) :
    rne q = f + 1 := by
  unfold rne
  rw [hf, if_neg (by linarith), if_pos h]

theorem fl_one_third : fl (1/3) = 11184811/33554432 := by
  rw [fl_of_nonneg (by norm_num)]
  have hfl : ⌊(1/3 : ℚ) * 2 ^ (23 - (-2 : ℤ))⌋ = 11184810 := by
    rw [Int.floor_eq_iff]
    norm_num
  have hrne : rne ((1/3 : ℚ) * 2 ^ (23 - (-2 : ℤ))) = 11184811 := by
    rw [rne_eq_of_gt hfl (by push_cast; norm_num)]
    norm_num
  rw [flPos_eval (e := -2) (by norm_num) (by norm_num) hrne]
  norm_num

theorem fl_13_22 : fl (13/22) = 9913809/16777216 := by
  rw [fl_of_nonneg (by norm_num)]
  have hfl : ⌊(13/22 : ℚ) * 2 ^ (23 - (-1 : ℤ))⌋ = 9913809 := by
    rw [Int.floor_eq_iff]
    norm_num
  have hrne : rne ((13/22 : ℚ) * 2 ^ (23 - (-1 : ℤ))) = 9913809 := by
    rw [rne_eq_of_lt hfl (by push_cast; norm_num)]
  rw [flPos_eval (e := -1) (by norm_num) (by norm_num) hrne]
  norm_num

theorem fl_col_22 : fl (9913809/16777216 * 22) = 13631487/1048576 := by
  rw [fl_of_nonneg (by norm_num)]
  have hfl : ⌊(9913809/16777216 * 22 : ℚ) * 2 ^ (23 - (3 : ℤ))⌋ = 13631487 := by
    rw [Int.floor_eq_iff]
    norm_num
  have hrne : rne ((9913809/16777216 * 22 : ℚ) * 2 ^ (23 - (3 : ℤ))) = 13631487 := by
    rw [rne_eq_of_lt hfl (by push_cast; norm_num)]
  rw [flPos_eval (e := 3) (by norm_num) (by norm_num) hrne]
  norm_num

/-- Extended `f32` values: finite (exact rational), the two infinities,
NaN. -/
inductive EF where
  | fin (q : ℚ)
  | inf
  | ninf
  | nan
deriving DecidableEq

/-- Pack a rounded finite result, overflowing to the infinities at
`2^128`. -/
def EF.mk (q : ℚ) : EF :=
  if q ≤ -(2^128) then .ninf else if 2^128 ≤ q then .inf else .fin q

/-- IEEE-754 multiplication on extended `f32` values (finite results
rounded by `fl`). -/
def efMul : EF → EF → EF
  | .nan, _ => .nan
  | _, .nan => .nan
  | .fin a, .fin b => EF.mk (fl (a * b))
  | .inf, .fin b => if b = 0 then .nan else if 0 < b then .inf else .ninf
  | .fin a, .inf => if a = 0 then .nan else if 0 < a then .inf else .ninf
  | .ninf, .fin b => if b = 0 then .nan else if 0 < b then .ninf else .inf
  | .fin a, .ninf => if a = 0 then .nan else if 0 < a then .ninf else .inf
  | .inf, .inf => .inf
  | .inf, .ninf => .ninf
  | .ninf, .inf => .ninf
  | .ninf, .ninf => .inf

/-- IEEE-754 division on extended `f32` values (finite results rounded
by `fl`; a nonzero finite value divided by zero gives a signed
infinity, zero by zero gives NaN). -/
def efDiv : EF → EF → EF
  | .nan, _ => .nan
  | _, .nan => .nan
  | .fin a, .fin b =>
      if b = 0 then (if a = 0 then .nan else if 0 < a then .inf else .ninf)
      else EF.mk (fl (a / b))
  | .fin _, .inf => .fin 0
  | .fin _, .ninf => .fin 0
  | .inf, .fin b => if 0 ≤ b then .inf else .ninf
  | .ninf, .fin b => if 0 ≤ b then .ninf else .inf
  | .inf, _ => .nan
  | .ninf, _ => .nan

/-- Truncation toward zero of a rational, as in Rust float-to-int
casts. -/
def truncQ (q : ℚ) : ℤ := if q < 0 then -⌊-q⌋ else ⌊q⌋

/-- Rust's saturating `as i32` cast from `f32` (NaN casts to 0). -/
def i32cast : EF → ℤ
  | .fin q => max (-(2^31)) (min (2^31 - 1) (truncQ q))
  | .inf => 2^31 - 1
  | .ninf => -(2^31)
  | .nan => 0

/-- `find_highest_sample` from `src/core.rs` (lines 89–101): scan left
to right from the default (zero), adding each strictly record-breaking
sample to the running value (`T::from_sample` is the identity at the
scanned type).  This is the source's generic scan instantiated at exact
rationals. -/
def find_highest_sample (samples : List ℚ) : ℚ :=
  samples.foldl (fun highest s => if highest < s then highest + s else highest) 0

/-- The scale factor `wave_ratio = 1.0 / highest` computed in
`ViewSignal::new` (source lines 50–51, with `highest` obtained through
`wave_height_ratio`, which converts `find_highest_sample` into `f32` —
the identity here); the `f32` division of `1.0` by zero gives `+inf`
when the accumulated highest is zero. -/
def waveScale (sound : List ℚ) : EF :=
  efDiv (.fin 1) (.fin (find_highest_sample sound))

/-- The pixel column computed in `draw_wave` (source lines 127–129):
`((i as f32 / sample_len as f32) * width as f32) as i32`. -/
def sampleX (w n i : ℕ) : ℤ :=
  i32cast (efMul (efDiv (.fin (fl i)) (.fin (fl n))) (.fin (fl w)))

/-- `height as i32 / 2`, the vertical center row (source line 132;
`height` is `desired_size[1] as f32`). -/
def centerY (h : ℕ) : ℤ := i32cast (.fin (fl h)) / 2

/-- `(height / 2.0 * s) as i32` for the scaled sample `s = sample *
wave_ratio` (source lines 134 and 139; both parity branches compute the
same magnitude). -/
def scaledOffset (ratio : EF) (h : ℕ) (s : ℚ) : ℤ :=
  i32cast (efMul (efDiv (.fin (fl h)) (.fin 2)) (efMul (.fin s) ratio))

/-- One anti-aliased line segment handed to the drawing primitive:
column `x`, from row `y0` to row `y1`. -/
structure Segment where
  x : ℤ
  y0 : ℤ
  y1 : ℤ
deriving DecidableEq

/-- The segment drawn for sample `s` at index `i` (source lines
125–142): start at the center row, end above or below it according to
the parity of `i`. -/
def segFor (n w h : ℕ) (ratio : EF) (i : ℕ) (s : ℚ) : Segment :=
  { x := sampleX w n i
    y0 := centerY h
    y1 := if i % 2 = 0 then centerY h + scaledOffset ratio h s
          else centerY h - scaledOffset ratio h s }

def drawWaveAux (ratio : EF) (n w h : ℕ) : ℕ → List ℚ → List Segment
  | _, [] => []
  | i, s :: rest => segFor n w h ratio i s :: drawWaveAux ratio n w h (i+1) rest

/-- `draw_wave` (source lines 113–144) as the list of segments it hands
to `draw_antialiased_line_segment_mut`, in loop order. -/
def drawWave (sound : List ℚ) (ratio : EF) (w h : ℕ) : List Segment :=
  drawWaveAux ratio sound.length w h 0 sound

/-- An RGB color. -/
structure Color where
  r : ℕ
  g : ℕ
  b : ℕ
deriving DecidableEq

/-- The effective height: the requested height goes through `as f32`
(`let height = desired_size[1] as f32`, source line 33) and back
through `as usize` / `as u32`, so heights above `2^24` are rounded. -/
def hEff (h : ℕ) : ℕ := (⌊fl (h : ℚ)⌋).toNat

/-- The background fill of `ViewSignal::new` (source lines 36–45): the
buffer of `255`s is walked in 3-byte chunks and each chunk is set to
the three background channels (the channel vectors hold the same color
at every index). -/
def fill3 (bc : Color) : List ℕ → List ℕ
  | _ :: _ :: _ :: rest => bc.r :: bc.g :: bc.b :: fill3 bc rest
  | rest => rest

/-- Modelled from the spec: the external `ImageBuffer::from_raw` of the
image crate (§4.3's Canvas creation delegates allocation to it), which
succeeds iff the container holds at least `width*height*3` bytes; the
crate itself never rejects zero dimensions. -/
def fromRaw (w h : ℕ) (buf : List ℕ) : Option (List ℕ) :=
  if w * h * 3 ≤ buf.length then some buf else none

/-- The buffer allocation and fill of `ViewSignal::new` (source lines
33–47), ending in the `from_raw(...)` call whose `.unwrap()` would
abort on `none`. -/
def canvasCreate (w h : ℕ) (bc : Color) : Option (List ℕ) :=
  fromRaw w (hEff h) (fill3 bc (List.replicate (w * hEff h * 3) 255))

/-- Modelled from the spec: the drawing primitive
(`draw_antialiased_line_segment_mut` with `interpolate`) for the purely
vertical segments produced here — it writes the wave color to every
in-range pixel of the segment's column between its endpoint rows and
leaves every other pixel unchanged; out-of-range portions are dropped
(spec §4.3: a no-op for the portion of any segment outside bounds). -/
def drawVSeg (w h : ℕ) (c : Color) (seg : Segment) (canvas : ℤ → ℤ → Color) :
    ℤ → ℤ → Color :=
  fun x y =>
    if x = seg.x ∧ min seg.y0 seg.y1 ≤ y ∧ y ≤ max seg.y0 seg.y1 ∧
        0 ≤ x ∧ x < (w : ℤ) ∧ 0 ≤ y ∧ y < (h : ℤ) then c
    else canvas x y

/-- The rasterization loop: draw every segment in order. -/
def rasterize (w h : ℕ) (c : Color) (segs : List Segment)
    (canvas : ℤ → ℤ → Color) : ℤ → ℤ → Color :=
  segs.foldl (fun cv seg => drawVSeg w h c seg cv) canvas

/-- Reading pixel `(x, y)` of a raw row-major RGB byte buffer. -/
def bufPixel (buf : List ℕ) (w : ℕ) (x y : ℤ) : Color :=
  { r := buf.getD (3 * (y.toNat * w + x.toNat)) 0
    g := buf.getD (3 * (y.toNat * w + x.toNat) + 1) 0
    b := buf.getD (3 * (y.toNat * w + x.toNat) + 2) 0 }

/-- `ViewSignal::new` (source lines 24–56): allocate and fill the
canvas, compute the scale, draw the wave; `none` models the `.unwrap()`
abort on a failed `from_raw`. -/
def viewSignalNew (sound : List ℚ) (w h : ℕ) (wc bc : Color) :
    Option (ℤ → ℤ → Color) :=
  (canvasCreate w h bc).map fun buf =>
    rasterize w (hEff h) wc (drawWave sound (waveScale sound) w h)
      (fun x y => bufPixel buf w x y)

/-- Pixel `(x, y)` lies on segment `seg` (the pixels the drawing
primitive may touch). -/
def covers (seg : Segment) (x y : ℤ) : Prop :=
  x = seg.x ∧ min seg.y0 seg.y1 ≤ y ∧ y ≤ max seg.y0 seg.y1

instance (seg : Segment) (x y : ℤ) : Decidable (covers seg x y) := by
  unfold covers
  infer_instance

/-- Definition following the spec's words (§3): the peak amplitude, the
maximum amplitude magnitude observed across the buffer. -/
def peak_amplitude (l : List ℚ) : ℚ := l.foldl (fun m x => max m |x|) 0

/-! ### Evaluation helpers for the extended-float operations -/

theorem EF.mk_eq_fin {q : ℚ} (h : |q| < 2^128) : EF.mk q = .fin q := by
  rw [abs_lt] at h
  unfold EF.mk
  rw [if_neg (by linarith), if_neg (by linarith)]

theorem efDiv_fin {a b : ℚ} (hb : b ≠ 0) (h : |fl (a / b)| < 2^128) :
    efDiv (.fin a) (.fin b) = .fin (fl (a / b)) := by
  have hd : efDiv (.fin a) (.fin b) =
      if b = 0 then (if a = 0 then EF.nan else if 0 < a then EF.inf else EF.ninf)
      else EF.mk (fl (a / b)) := rfl
  rw [hd, if_neg hb]
  exact EF.mk_eq_fin h

theorem efMul_fin {a b : ℚ} (h : |fl (a * b)| < 2^128) :
    efMul (.fin a) (.fin b) = .fin (fl (a * b)) := by
  have hd : efMul (.fin a) (.fin b) = EF.mk (fl (a * b)) := rfl
  rw [hd]
  exact EF.mk_eq_fin h

theorem truncQ_of_nonneg {q : ℚ} (h0 : 0 ≤ q) : truncQ q = ⌊q⌋ := by
  unfold truncQ
  rw [if_neg (not_lt.mpr h0)]

theorem i32cast_fin {q : ℚ} (h0 : 0 ≤ q) (h31 : q < 2^31) :
    i32cast (.fin q) = ⌊q⌋ := by
  have hd : i32cast (.fin q) = max (-(2^31)) (min (2^31 - 1) (truncQ q)) := rfl
  have h1 : (0 : ℤ) ≤ ⌊q⌋ := Int.floor_nonneg.mpr h0
  have h2 : ⌊q⌋ < 2^31 := by
    apply Int.floor_lt.mpr
    calc q < 2^31 := h31
    _ = ((2^31 : ℤ) : ℚ) := by norm_num
  rw [hd, truncQ_of_nonneg h0]
  omega

theorem i32cast_range (e : EF) :
    -(2^31) ≤ i32cast e ∧ i32cast e ≤ 2^31 - 1 := by
  cases e <;> simp [i32cast]

/-! ### Invariants of the `find_highest_sample` scan -/

theorem foldl_highest_nonneg (l : List ℚ) (a : ℚ) (h : 0 ≤ a) :
    0 ≤ l.foldl (fun highest s => if highest < s then highest + s else highest) a := by
  induction l generalizing a with
  | nil => simpa using h
  | cons x xs ih =>
    simp only [List.foldl_cons]
    apply ih
    split_ifs with hx
    · linarith
    · exact h

theorem le_foldl_highest (l : List ℚ) (a : ℚ) (h : 0 ≤ a) :
    a ≤ l.foldl (fun highest s => if highest < s then highest + s else highest) a := by
  induction l generalizing a with
  | nil => simp
  | cons x xs ih =>
    simp only [List.foldl_cons]
    have hstep : a ≤ (if a < x then a + x else a) ∧
        (0 : ℚ) ≤ (if a < x then a + x else a) := by
      split_ifs with hx
      · constructor <;> linarith
      · exact ⟨le_refl a, h⟩
    exact le_trans hstep.1 (ih _ hstep.2)

theorem mem_le_foldl_highest {x : ℚ} :
    ∀ (l : List ℚ) (a : ℚ), 0 ≤ a → x ∈ l →
    x ≤ l.foldl (fun highest s => if highest < s then highest + s else highest) a
  | [], _, _, hx => absurd hx (List.not_mem_nil x)
  | y :: ys, a, h, hx => by
    simp only [List.foldl_cons]
    have hstep : (0 : ℚ) ≤ (if a < y then a + y else a) := by
      split_ifs with hy
      · linarith
      · exact h
    rcases List.mem_cons.mp hx with rfl | hmem
    · have hy : x ≤ (if a < x then a + x else a) := by
        split_ifs with hcase
        · linarith
        · linarith [not_lt.mp hcase]
      exact le_trans hy (le_foldl_highest ys _ hstep)
    · exact mem_le_foldl_highest ys _ hstep hmem

theorem foldl_highest_of_nonpos (l : List ℚ) (a : ℚ) (h : 0 ≤ a)
    (hl : ∀ x ∈ l, x ≤ 0) :
    l.foldl (fun highest s => if highest < s then highest + s else highest) a = a := by
  induction l generalizing a with
  | nil => rfl
  | cons x xs ih =>
    simp only [List.foldl_cons]
    have hx : x ≤ 0 := hl x (by simp)
    rw [if_neg (by linarith)]
    exact ih a h (fun y hy => hl y (by simp [hy]))

theorem find_highest_sample_nonneg (l : List ℚ) : 0 ≤ find_highest_sample l :=
  foldl_highest_nonneg l 0 le_rfl

theorem mem_le_find_highest_sample {x : ℚ} {l : List ℚ} (hx : x ∈ l) :
    x ≤ find_highest_sample l :=
  mem_le_foldl_highest l 0 le_rfl hx

theorem find_highest_sample_of_nonpos {l : List ℚ} (hl : ∀ x ∈ l, x ≤ 0) :
    find_highest_sample l = 0 :=
  foldl_highest_of_nonpos l 0 le_rfl hl

theorem waveScale_of_zero {l : List ℚ} (h : find_highest_sample l = 0) :
    waveScale l = EF.inf := by
  unfold waveScale
  rw [h]
  norm_num [efDiv]

theorem waveScale_of_ne_zero {l : List ℚ} (h : find_highest_sample l ≠ 0) :
    waveScale l = EF.mk (fl (1 / find_highest_sample l)) := by
  have hd : waveScale l =
      if find_highest_sample l = 0 then
        (if (1 : ℚ) = 0 then EF.nan else if (0:ℚ) < 1 then EF.inf else EF.ninf)
      else EF.mk (fl (1 / find_highest_sample l)) := rfl
  rw [hd, if_neg h]

/-! ### The pixel-column computation -/

theorem fl_rep (q : ℚ) (m k : ℤ) (hq : q = (m : ℚ) * 2 ^ k) (h0 : 0 ≤ m)
    (h24 : m < 2 ^ 24) : fl q = q := by
  rw [hq]
  exact fl_eq_self h0 h24

theorem sampleX_closed {w n i : ℕ} (hn : 0 < n) (hin : i ≤ n) (hw : w ≤ 2 ^ 24) :
    sampleX w n i = ⌊fl (fl (fl (i : ℚ) / fl (n : ℚ)) * fl (w : ℚ))⌋ ∧
    0 ≤ fl (fl (fl (i : ℚ) / fl (n : ℚ)) * fl (w : ℚ)) ∧
    fl (fl (fl (i : ℚ) / fl (n : ℚ)) * fl (w : ℚ)) ≤ fl (w : ℚ) ∧
    fl (w : ℚ) = (w : ℚ) := by
  have hw_eq : fl (w : ℚ) = (w : ℚ) := fl_natCast hw
  have hwq : (w : ℚ) ≤ 2 ^ 24 := by exact_mod_cast hw
  have hfn1 : (1 : ℚ) ≤ fl (n : ℚ) := one_le_fl (by exact_mod_cast hn)
  have hfnpos : (0 : ℚ) < fl (n : ℚ) := lt_of_lt_of_le one_pos hfn1
  have hfi0 : 0 ≤ fl (i : ℚ) := fl_nonneg (Nat.cast_nonneg i)
  have hfin : fl (i : ℚ) ≤ fl (n : ℚ) :=
    fl_mono (Nat.cast_nonneg i) (by exact_mod_cast hin)
  have hq00 : 0 ≤ fl (i : ℚ) / fl (n : ℚ) := div_nonneg hfi0 (le_of_lt hfnpos)
  have hq01 : fl (i : ℚ) / fl (n : ℚ) ≤ 1 := (div_le_one hfnpos).mpr hfin
  have hq10 : 0 ≤ fl (fl (i : ℚ) / fl (n : ℚ)) := fl_nonneg hq00
  have hq11 : fl (fl (i : ℚ) / fl (n : ℚ)) ≤ 1 := fl_le_one hq00 hq01
  have hw0 : (0 : ℚ) ≤ fl (w : ℚ) := by rw [hw_eq]; positivity
  have hp00 : 0 ≤ fl (fl (i : ℚ) / fl (n : ℚ)) * fl (w : ℚ) := mul_nonneg hq10 hw0
  have hp0w : fl (fl (i : ℚ) / fl (n : ℚ)) * fl (w : ℚ) ≤ fl (w : ℚ) := by
    calc fl (fl (i : ℚ) / fl (n : ℚ)) * fl (w : ℚ) ≤ 1 * fl (w : ℚ) :=
          mul_le_mul_of_nonneg_right hq11 hw0
    _ = fl (w : ℚ) := one_mul _
  have hww : fl (fl (w : ℚ)) = fl (w : ℚ) := by rw [hw_eq]; exact hw_eq
  have hp10 : 0 ≤ fl (fl (fl (i : ℚ) / fl (n : ℚ)) * fl (w : ℚ)) := fl_nonneg hp00
  have hp1w : fl (fl (fl (i : ℚ) / fl (n : ℚ)) * fl (w : ℚ)) ≤ fl (w : ℚ) := by
    calc fl (fl (fl (i : ℚ) / fl (n : ℚ)) * fl (w : ℚ)) ≤ fl (fl (w : ℚ)) :=
          fl_mono hp00 hp0w
    _ = fl (w : ℚ) := hww
  have hdiv : efDiv (.fin (fl (i : ℚ))) (.fin (fl (n : ℚ))) =
      .fin (fl (fl (i : ℚ) / fl (n : ℚ))) := by
    apply efDiv_fin (ne_of_gt hfnpos)
    rw [abs_of_nonneg hq10]
    linarith
  have hmul : efMul (.fin (fl (fl (i : ℚ) / fl (n : ℚ)))) (.fin (fl (w : ℚ))) =
      .fin (fl (fl (fl (i : ℚ) / fl (n : ℚ)) * fl (w : ℚ))) := by
    apply efMul_fin
    rw [abs_of_nonneg hp10]
    calc fl (fl (fl (i : ℚ) / fl (n : ℚ)) * fl (w : ℚ)) ≤ fl (w : ℚ) := hp1w
    _ = (w : ℚ) := hw_eq
    _ ≤ 2 ^ 24 := hwq
    _ < 2 ^ 128 := by norm_num
  have hcast : i32cast (.fin (fl (fl (fl (i : ℚ) / fl (n : ℚ)) * fl (w : ℚ)))) =
      ⌊fl (fl (fl (i : ℚ) / fl (n : ℚ)) * fl (w : ℚ))⌋ := by
    apply i32cast_fin hp10
    calc fl (fl (fl (i : ℚ) / fl (n : ℚ)) * fl (w : ℚ)) ≤ fl (w : ℚ) := hp1w
    _ = (w : ℚ) := hw_eq
    _ ≤ 2 ^ 24 := hwq
    _ < 2 ^ 31 := by norm_num
  refine ⟨?_, hp10, hp1w, hw_eq⟩
  unfold sampleX
  rw [hdiv, hmul, hcast]

theorem sampleX_zero {w n : ℕ} (hn : 0 < n) : sampleX w n 0 = 0 := by
  have hfn1 : (1 : ℚ) ≤ fl (n : ℚ) := one_le_fl (by exact_mod_cast hn)
  have h0 : fl ((0 : ℕ) : ℚ) = 0 := by simpa using fl_zero
  unfold sampleX
  rw [h0, efDiv_fin (by linarith) (by rw [zero_div, fl_zero]; norm_num),
    zero_div, fl_zero, efMul_fin (by rw [zero_mul, fl_zero]; norm_num),
    zero_mul, fl_zero, i32cast_fin le_rfl (by norm_num)]
  exact Int.floor_zero

theorem sampleX_nonneg {w n i : ℕ} (hn : 0 < n) (hin : i ≤ n) (hw : w ≤ 2 ^ 24) :
    0 ≤ sampleX w n i := by
  obtain ⟨he, h0, _, _⟩ := sampleX_closed hn hin hw
  rw [he]
  exact Int.floor_nonneg.mpr h0

theorem sampleX_le_w {w n i : ℕ} (hn : 0 < n) (hin : i ≤ n) (hw : w ≤ 2 ^ 24) :
    sampleX w n i ≤ (w : ℤ) := by
  obtain ⟨he, _, hle, hweq⟩ := sampleX_closed hn hin hw
  rw [he]
  calc ⌊fl (fl (fl (i : ℚ) / fl (n : ℚ)) * fl (w : ℚ))⌋ ≤ ⌊fl (w : ℚ)⌋ :=
        Int.floor_le_floor hle
  _ = (w : ℤ) := by rw [hweq]; exact Int.floor_natCast w

theorem sampleX_mono {w n i j : ℕ} (hn : 0 < n) (hw : w ≤ 2 ^ 24) (hij : i ≤ j)
    (hjn : j ≤ n) : sampleX w n i ≤ sampleX w n j := by
  obtain ⟨hie, hi0, _, hw_eq⟩ := sampleX_closed hn (le_trans hij hjn) hw
  obtain ⟨hje, _, _, _⟩ := sampleX_closed hn hjn hw
  rw [hie, hje]
  apply Int.floor_le_floor
  have hfn1 : (1 : ℚ) ≤ fl (n : ℚ) := one_le_fl (by exact_mod_cast hn)
  have hfnpos : (0 : ℚ) < fl (n : ℚ) := lt_of_lt_of_le one_pos hfn1
  have hfi0 : 0 ≤ fl (i : ℚ) := fl_nonneg (Nat.cast_nonneg i)
  have hfij : fl (i : ℚ) ≤ fl (j : ℚ) :=
    fl_mono (Nat.cast_nonneg i) (by exact_mod_cast hij)
  have hdivle : fl (i : ℚ) / fl (n : ℚ) ≤ fl (j : ℚ) / fl (n : ℚ) :=
    div_le_div_of_nonneg_right hfij (le_of_lt hfnpos)
  have hq00 : 0 ≤ fl (i : ℚ) / fl (n : ℚ) := div_nonneg hfi0 (le_of_lt hfnpos)
  have hqle : fl (fl (i : ℚ) / fl (n : ℚ)) ≤ fl (fl (j : ℚ) / fl (n : ℚ)) :=
    fl_mono hq00 hdivle
  have hq10 : 0 ≤ fl (fl (i : ℚ) / fl (n : ℚ)) := fl_nonneg hq00
  have hw0 : (0 : ℚ) ≤ fl (w : ℚ) := by rw [hw_eq]; positivity
  exact fl_mono (mul_nonneg hq10 hw0) (mul_le_mul_of_nonneg_right hqle hw0)

theorem sampleX_22 : sampleX 22 22 13 = 12 := by
  unfold sampleX
  simp only [Nat.cast_ofNat]
  rw [fl_rep 13 13 0 (by norm_num) (by norm_num) (by norm_num),
    fl_rep 22 22 0 (by norm_num) (by norm_num) (by norm_num),
    efDiv_fin (by norm_num)
      (by rw [fl_13_22, abs_of_nonneg (by norm_num)]; norm_num), fl_13_22,
    efMul_fin (by rw [fl_col_22, abs_of_nonneg (by norm_num)]; norm_num),
    fl_col_22,
    i32cast_fin (by norm_num) (by norm_num), Int.floor_eq_iff]
  norm_num

/-! ### The drawing loop and the canvas -/

theorem drawWaveAux_getElem (ratio : EF) (n w h : ℕ) :
    ∀ (l : List ℚ) (i j : ℕ),
      (drawWaveAux ratio n w h i l)[j]? =
        (l[j]?).map (fun s => segFor n w h ratio (i + j) s)
  | [], i, j => by simp [drawWaveAux]
  | s :: rest, i, 0 => by simp [drawWaveAux]
  | s :: rest, i, j+1 => by
    have ih := drawWaveAux_getElem ratio n w h rest (i+1) j
    simp only [drawWaveAux, List.getElem?_cons_succ, ih]
    rw [show i + 1 + j = i + (j + 1) by omega]

theorem mem_drawWaveAux {ratio : EF} {n w h : ℕ} :
    ∀ {i : ℕ} {l : List ℚ} {seg : Segment},
      seg ∈ drawWaveAux ratio n w h i l →
      ∃ j s, s ∈ l ∧ seg = segFor n w h ratio j s
  | _, [], _, hmem => absurd hmem (by simp [drawWaveAux])
  | i, x :: rest, seg, hmem => by
    have hmem2 : seg ∈ segFor n w h ratio i x :: drawWaveAux ratio n w h (i+1) rest :=
      hmem
    rcases List.mem_cons.mp hmem2 with rfl | hmem3
    · exact ⟨i, x, by simp, rfl⟩
    · obtain ⟨j, s, hs, he⟩ := mem_drawWaveAux hmem3
      exact ⟨j, s, by simp [hs], he⟩

theorem fill3_length (bc : Color) : ∀ l : List ℕ, (fill3 bc l).length = l.length
  | [] => rfl
  | [_] => rfl
  | [_, _] => rfl
  | _ :: _ :: _ :: rest => by
    simp only [fill3, List.length_cons, fill3_length bc rest]

theorem fill3_replicate_getD (bc : Color) (a : ℕ) :
    ∀ (m jj : ℕ), jj < 3 * m →
      (fill3 bc (List.replicate (3 * m) a)).getD jj 0 =
        (if jj % 3 = 0 then bc.r else if jj % 3 = 1 then bc.g else bc.b)
  | 0, jj, hjj => by omega
  | m+1, 0, _ => by
    rw [show 3 * (m+1) = 3*m+1+1+1 by ring]
    simp [List.replicate_succ, fill3]
  | m+1, 1, _ => by
    rw [show 3 * (m+1) = 3*m+1+1+1 by ring]
    simp [List.replicate_succ, fill3]
  | m+1, 2, _ => by
    rw [show 3 * (m+1) = 3*m+1+1+1 by ring]
    simp [List.replicate_succ, fill3]
  | m+1, jj+3, hjj => by
    rw [show 3 * (m+1) = 3*m+1+1+1 by ring]
    have ih := fill3_replicate_getD bc a m jj (by omega)
    simp only [List.replicate_succ, fill3, List.getD_cons_succ]
    rw [ih, show (jj+3) % 3 = jj % 3 by omega]

theorem canvasCreate_some (w h : ℕ) (bc : Color) :
    canvasCreate w h bc =
      some (fill3 bc (List.replicate (w * hEff h * 3) 255)) := by
  unfold canvasCreate fromRaw
  rw [if_pos]
  rw [fill3_length, List.length_replicate]

theorem bufPixel_bg {w h : ℕ} (bc : Color) {x y : ℤ} (hx : 0 ≤ x)
    (hxw : x < (w : ℤ)) (hy : 0 ≤ y) (hyh : y < (hEff h : ℤ)) :
    bufPixel (fill3 bc (List.replicate (w * hEff h * 3) 255)) w x y = bc := by
  unfold bufPixel
  have hxn : x.toNat < w := by omega
  have hyn : y.toNat < hEff h := by omega
  have hb : y.toNat * w + x.toNat < w * hEff h := by
    calc y.toNat * w + x.toNat < y.toNat * w + w := by omega
    _ = (y.toNat + 1) * w := by ring
    _ ≤ hEff h * w := Nat.mul_le_mul_right w (by omega)
    _ = w * hEff h := Nat.mul_comm _ _
  rw [show w * hEff h * 3 = 3 * (w * hEff h) by ring]
  rw [fill3_replicate_getD bc 255 (w * hEff h) _ (by omega),
    fill3_replicate_getD bc 255 (w * hEff h) _ (by omega),
    fill3_replicate_getD bc 255 (w * hEff h) _ (by omega)]
  rcases bc with ⟨r, g, b⟩
  have h0 : 3 * (y.toNat * w + x.toNat) % 3 = 0 := by omega
  have h1 : (3 * (y.toNat * w + x.toNat) + 1) % 3 = 1 := by omega
  have h2 : (3 * (y.toNat * w + x.toNat) + 2) % 3 = 2 := by omega
  simp [h0, h1, h2]

theorem viewSignalNew_eq (sound : List ℚ) (w h : ℕ) (wc bc : Color) :
    viewSignalNew sound w h wc bc =
      some (rasterize w (hEff h) wc (drawWave sound (waveScale sound) w h)
        (fun x y =>
          bufPixel (fill3 bc (List.replicate (w * hEff h * 3) 255)) w x y)) := by
  unfold viewSignalNew
  rw [canvasCreate_some]
  rfl

theorem viewSignalNew_isSome (sound : List ℚ) (w h : ℕ) (wc bc : Color) :
    (viewSignalNew sound w h wc bc).isSome = true := by
  rw [viewSignalNew_eq]
  rfl

theorem rasterize_out_of_bounds (w h : ℕ) (c : Color) :
    ∀ (segs : List Segment) (canvas : ℤ → ℤ → Color) (x y : ℤ),
      ¬(0 ≤ x ∧ x < (w : ℤ) ∧ 0 ≤ y ∧ y < (h : ℤ)) →
      rasterize w h c segs canvas x y = canvas x y
  | [], _, _, _, _ => rfl
  | seg :: rest, canvas, x, y, hout => by
    have h1 : rasterize w h c (seg :: rest) canvas =
        rasterize w h c rest (drawVSeg w h c seg canvas) := rfl
    rw [h1, rasterize_out_of_bounds w h c rest _ x y hout]
    unfold drawVSeg
    rw [if_neg]
    intro hcond
    exact hout ⟨hcond.2.2.2.1, hcond.2.2.2.2.1, hcond.2.2.2.2.2.1, hcond.2.2.2.2.2.2⟩

theorem rasterize_untouched (w h : ℕ) (c : Color) :
    ∀ (segs : List Segment) (canvas : ℤ → ℤ → Color) (x y : ℤ),
      (∀ seg ∈ segs, ¬ covers seg x y) →
      rasterize w h c segs canvas x y = canvas x y
  | [], _, _, _, _ => rfl
  | seg :: rest, canvas, x, y, hseg => by
    have h1 : rasterize w h c (seg :: rest) canvas =
        rasterize w h c rest (drawVSeg w h c seg canvas) := rfl
    rw [h1, rasterize_untouched w h c rest _ x y (fun s hs => hseg s (by simp [hs]))]
    unfold drawVSeg
    rw [if_neg]
    intro hcond
    exact hseg seg (by simp) ⟨hcond.1, hcond.2.1, hcond.2.2.1⟩

theorem untouched_pixel_bg (sound : List ℚ) (w h : ℕ) (wc bc : Color)
    (x y : ℤ) (hx : 0 ≤ x) (hxw : x < (w : ℤ)) (hy : 0 ≤ y)
    (hyh : y < (hEff h : ℤ))
    (hseg : ∀ seg ∈ drawWave sound (waveScale sound) w h, ¬ covers seg x y) :
    (viewSignalNew sound w h wc bc).map (fun canvas => canvas x y) = some bc := by
  rw [viewSignalNew_eq]
  have hpix : rasterize w (hEff h) wc (drawWave sound (waveScale sound) w h)
      (fun x y =>
        bufPixel (fill3 bc (List.replicate (w * hEff h * 3) 255)) w x y) x y = bc := by
    rw [rasterize_untouched w (hEff h) wc _ _ x y hseg]
    exact bufPixel_bg bc hx hxw hy hyh
  simp [hpix]

theorem emptyRender_pixel (w h : ℕ) (wc bc : Color) (x y : ℤ) (hx : 0 ≤ x)
    (hxw : x < (w : ℤ)) (hy : 0 ≤ y) (hyh : y < (hEff h : ℤ)) :
    (viewSignalNew [] w h wc bc).map (fun canvas => canvas x y) = some bc := by
  apply untouched_pixel_bg [] w h wc bc x y hx hxw hy hyh
  intro seg hs
  simp [drawWave, drawWaveAux] at hs

theorem hEff_eq {h : ℕ} (hh : h ≤ 2^24) : hEff h = h := by
  unfold hEff
  rw [fl_natCast hh, Int.floor_natCast]
  simp

theorem scaledOffset_inf_zero (h : ℕ) : scaledOffset EF.inf h 0 = 0 := by
  have h1 : efMul (EF.fin 0) EF.inf = EF.nan := by
    have hd : efMul (EF.fin 0) EF.inf =
        if (0:ℚ) = 0 then EF.nan else if 0 < (0:ℚ) then EF.inf else EF.ninf := rfl
    rw [hd, if_pos rfl]
  unfold scaledOffset
  rw [h1]
  have h2 : efMul (efDiv (EF.fin (fl h)) (EF.fin 2)) EF.nan = EF.nan := by
    cases efDiv (EF.fin (fl h)) (EF.fin 2) <;> rfl
  rw [h2]
  rfl

/-! ### Concrete evaluations -/

theorem efDiv_rep {a b q : ℚ} (hb : b ≠ 0) (hq : a / b = q) (m k : ℤ)
    (hqr : q = (m : ℚ) * 2 ^ k) (h0 : 0 ≤ m) (h24 : m < 2 ^ 24)
    (habs : |q| < 2 ^ 128) : efDiv (.fin a) (.fin b) = .fin q := by
  rw [efDiv_fin hb (by rw [hq, fl_rep q m k hqr h0 h24]; exact habs), hq,
    fl_rep q m k hqr h0 h24]

theorem efMul_rep {a b q : ℚ} (hq : a * b = q) (m k : ℤ)
    (hqr : q = (m : ℚ) * 2 ^ k) (h0 : 0 ≤ m) (h24 : m < 2 ^ 24)
    (habs : |q| < 2 ^ 128) : efMul (.fin a) (.fin b) = .fin q := by
  rw [efMul_fin (by rw [hq, fl_rep q m k hqr h0 h24]; exact habs), hq,
    fl_rep q m k hqr h0 h24]

theorem i32cast_eval {q : ℚ} {z : ℤ} (h0 : 0 ≤ q) (h31 : q < 2 ^ 31)
    (hf : ⌊q⌋ = z) : i32cast (.fin q) = z := by
  rw [i32cast_fin h0 h31, hf]

theorem centerY_eval {h : ℕ} (hh : h ≤ 2 ^ 24) : centerY h = (h : ℤ) / 2 := by
  unfold centerY
  rw [fl_natCast hh, i32cast_fin (by positivity) ?_, Int.floor_natCast]
  calc (h : ℚ) ≤ 2 ^ 24 := by exact_mod_cast hh
  _ < 2 ^ 31 := by norm_num

theorem centerY_4 : centerY 4 = 2 := by
  rw [centerY_eval (by norm_num)]
  decide

theorem centerY_2 : centerY 2 = 1 := by
  rw [centerY_eval (by norm_num)]
  decide

theorem fhs_cex : find_highest_sample [1/2, 7/2] = 4 := by
  norm_num [find_highest_sample]

theorem waveScale_cex : waveScale [1/2, 7/2] = .fin (1/4) := by
  rw [waveScale_of_ne_zero (by rw [fhs_cex]; norm_num), fhs_cex,
    show (1 : ℚ)/4 = 1/4 by norm_num,
    fl_rep (1/4) 1 (-2) (by norm_num) (by norm_num) (by norm_num)]
  exact EF.mk_eq_fin (by rw [abs_of_nonneg (by norm_num)]; norm_num)

theorem sampleX_2_2_1 : sampleX 2 2 1 = 1 := by
  unfold sampleX
  simp only [Nat.cast_ofNat, Nat.cast_one]
  rw [fl_one, fl_rep 2 2 0 (by norm_num) (by norm_num) (by norm_num),
    efDiv_rep (by norm_num) (show (1:ℚ)/2 = 1/2 by norm_num) 1 (-1)
      (by norm_num) (by norm_num) (by norm_num)
      (by rw [abs_of_nonneg (by norm_num)]; norm_num),
    efMul_rep (show (1/2:ℚ) * 2 = 1 by norm_num) 1 0
      (by norm_num) (by norm_num) (by norm_num)
      (by rw [abs_of_nonneg (by norm_num)]; norm_num),
    i32cast_eval (by norm_num) (by norm_num) Int.floor_one]

theorem scaledOffset_cex : scaledOffset (.fin (1/4)) 4 (7/2) = 1 := by
  unfold scaledOffset
  simp only [Nat.cast_ofNat]
  rw [fl_rep 4 4 0 (by norm_num) (by norm_num) (by norm_num),
    efDiv_rep (by norm_num) (show (4:ℚ)/2 = 2 by norm_num) 2 0
      (by norm_num) (by norm_num) (by norm_num)
      (by rw [abs_of_nonneg (by norm_num)]; norm_num),
    efMul_rep (show (7/2:ℚ) * (1/4) = 7/8 by norm_num) 7 (-3)
      (by norm_num) (by norm_num) (by norm_num)
      (by rw [abs_of_nonneg (by norm_num)]; norm_num),
    efMul_rep (show (2:ℚ) * (7/8) = 7/4 by norm_num) 7 (-2)
      (by norm_num) (by norm_num) (by norm_num)
      (by rw [abs_of_nonneg (by norm_num)]; norm_num),
    i32cast_eval (by norm_num) (by norm_num)
      (show ⌊(7/4 : ℚ)⌋ = 1 by rw [Int.floor_eq_iff]; norm_num)]

theorem drawWave_cex :
    (drawWave [1/2, 7/2] (waveScale [1/2, 7/2]) 2 4)[1]? =
      some { x := 1, y0 := 2, y1 := 1 } := by
  rw [waveScale_cex]
  show (drawWaveAux (.fin (1/4)) 2 2 4 0 [1/2, 7/2])[1]? = _
  simp only [drawWaveAux, List.getElem?_cons_succ, List.getElem?_cons_zero]
  unfold segFor
  rw [if_neg (by norm_num), sampleX_2_2_1, centerY_4, scaledOffset_cex]
  norm_num

theorem fhs_two : find_highest_sample [2] = 2 := by
  norm_num [find_highest_sample]

theorem waveScale_two : waveScale [2] = .fin (1/2) := by
  rw [waveScale_of_ne_zero (by rw [fhs_two]; norm_num), fhs_two,
    show (1 : ℚ)/2 = 1/2 by norm_num,
    fl_rep (1/2) 1 (-1) (by norm_num) (by norm_num) (by norm_num)]
  exact EF.mk_eq_fin (by rw [abs_of_nonneg (by norm_num)]; norm_num)

theorem scaledOffset_two : scaledOffset (.fin (1/2)) 4 2 = 2 := by
  unfold scaledOffset
  simp only [Nat.cast_ofNat]
  rw [fl_rep 4 4 0 (by norm_num) (by norm_num) (by norm_num),
    efDiv_rep (by norm_num) (show (4:ℚ)/2 = 2 by norm_num) 2 0
      (by norm_num) (by norm_num) (by norm_num)
      (by rw [abs_of_nonneg (by norm_num)]; norm_num),
    efMul_rep (show (2:ℚ) * (1/2) = 1 by norm_num) 1 0
      (by norm_num) (by norm_num) (by norm_num)
      (by rw [abs_of_nonneg (by norm_num)]; norm_num),
    efMul_rep (show (2:ℚ) * 1 = 2 by norm_num) 2 0
      (by norm_num) (by norm_num) (by norm_num)
      (by rw [abs_of_nonneg (by norm_num)]; norm_num),
    i32cast_eval (by norm_num) (by norm_num)
      (show ⌊(2 : ℚ)⌋ = 2 by rw [Int.floor_eq_iff]; norm_num)]

theorem drawWave_two :
    (drawWave [(2:ℚ)] (waveScale [2]) 2 4)[0]? =
      some { x := 0, y0 := 2, y1 := 4 } := by
  rw [waveScale_two]
  show (drawWaveAux (.fin (1/2)) 1 2 4 0 [2])[0]? = _
  simp only [drawWaveAux, List.getElem?_cons_zero]
  unfold segFor
  rw [if_pos (by norm_num), sampleX_zero (by norm_num), centerY_4,
    scaledOffset_two]
  norm_num

theorem fhs_one : find_highest_sample [1] = 1 := by
  norm_num [find_highest_sample]

theorem waveScale_one : waveScale [1] = .fin 1 := by
  rw [waveScale_of_ne_zero (by rw [fhs_one]; norm_num), fhs_one,
    show (1 : ℚ)/1 = 1 by norm_num, fl_one]
  exact EF.mk_eq_fin (by rw [abs_of_nonneg (by norm_num)]; norm_num)

theorem scaledOffset_one : scaledOffset (.fin 1) 2 1 = 1 := by
  unfold scaledOffset
  simp only [Nat.cast_ofNat]
  rw [fl_rep 2 2 0 (by norm_num) (by norm_num) (by norm_num),
    efDiv_rep (by norm_num) (show (2:ℚ)/2 = 1 by norm_num) 1 0
      (by norm_num) (by norm_num) (by norm_num)
      (by rw [abs_of_nonneg (by norm_num)]; norm_num),
    efMul_rep (show (1:ℚ) * 1 = 1 by norm_num) 1 0
      (by norm_num) (by norm_num) (by norm_num)
      (by rw [abs_of_nonneg (by norm_num)]; norm_num),
    efMul_rep (show (1:ℚ) * 1 = 1 by norm_num) 1 0
      (by norm_num) (by norm_num) (by norm_num)
      (by rw [abs_of_nonneg (by norm_num)]; norm_num),
    i32cast_eval (by norm_num) (by norm_num) Int.floor_one]

theorem drawWave_one :
    drawWave [(1:ℚ)] (waveScale [1]) 2 2 = [{ x := 0, y0 := 1, y1 := 2 }] := by
  rw [waveScale_one]
  show drawWaveAux (.fin 1) 1 2 2 0 [1] = _
  simp only [drawWaveAux]
  unfold segFor
  rw [if_pos (by norm_num), sampleX_zero (by norm_num), centerY_2,
    scaledOffset_one]
  norm_num

theorem drawWave_zeros :
    drawWave (List.replicate 1 (0:ℚ)) (waveScale (List.replicate 1 0)) 1 2 =
      [{ x := 0, y0 := 1, y1 := 1 }] := by
  have hws : waveScale (List.replicate 1 (0:ℚ)) = EF.inf :=
    waveScale_of_zero (find_highest_sample_of_nonpos
      (fun x hx => le_of_eq (List.eq_of_mem_replicate hx)))
  rw [hws]
  show drawWaveAux EF.inf 1 1 2 0 (List.replicate 1 0) = _
  rw [show List.replicate 1 (0:ℚ) = [0] from rfl]
  simp only [drawWaveAux]
  unfold segFor
  rw [if_pos (by norm_num), sampleX_zero (by norm_num), centerY_2,
    scaledOffset_inf_zero]
  norm_num

theorem fhs_1528 : find_highest_sample [1, 5, 2, 8] = 14 := by
  norm_num [find_highest_sample]

theorem peak_1528 : peak_amplitude [1, 5, 2, 8] = 8 := by
  norm_num [peak_amplitude]

theorem fhs_12 : find_highest_sample [1, 2] = 3 := by
  norm_num [find_highest_sample]

theorem peak_12 : peak_amplitude [1, 2] = 2 := by
  norm_num [peak_amplitude]

theorem waveScale_12 : waveScale [1, 2] = .fin (11184811/33554432) := by
  rw [waveScale_of_ne_zero (by rw [fhs_12]; norm_num), fhs_12, fl_one_third]
  exact EF.mk_eq_fin (by rw [abs_of_nonneg (by norm_num)]; norm_num)

/-! ### The claims -/

/-- C1: `find_highest_sample` scans the buffer once left to right starting
from the type's zero default, and a sample strictly exceeding the running
highest is added to it rather than replacing it; in particular on
`[1, 5, 2, 8]` the result is `14`, not the true maximum magnitude `8`. -/
theorem claim_C1 :
    (find_highest_sample [] = 0) ∧
    (∀ (l : List ℚ) (s : ℚ),
      find_highest_sample (l ++ [s]) =
        if find_highest_sample l < s then find_highest_sample l + s
        else find_highest_sample l) ∧
    find_highest_sample [1, 5, 2, 8] = 14 ∧
    peak_amplitude [1, 5, 2, 8] = 8 ∧
    find_highest_sample [1, 5, 2, 8] ≠ peak_amplitude [1, 5, 2, 8] := by
  refine ⟨rfl, ?_, fhs_1528, peak_1528, ?_⟩
  · intro l s
    unfold find_highest_sample
    rw [List.foldl_append]
    rfl
  · rw [fhs_1528, peak_1528]
    norm_num

/-- C2 counterexample: on the well-formed buffer `[1, 2]` the scale the
render uses is the f32 value of `1/3` (one over the accumulated highest),
not `1/2 = 1 / peak_amplitude`. -/
theorem counter_C2 : waveScale [1, 2] ≠ EF.fin (1 / peak_amplitude [1, 2]) := by
  rw [waveScale_12, peak_12]
  simp only [ne_eq, EF.fin.injEq]
  norm_num

/-- C2 (amended): for a well-formed (non-empty, non-silent) buffer the
scale is the f32 value of `1 / find_highest_sample`, where
`find_highest_sample` is the accumulated record sum — an upper bound on
every sample of the buffer — not the maximum amplitude magnitude. -/
theorem claim_C2 (l : List ℚ) (hne : l ≠ []) (h0 : find_highest_sample l ≠ 0) :
    waveScale l = EF.mk (fl (1 / find_highest_sample l)) ∧
    ∀ x ∈ l, x ≤ find_highest_sample l :=
  ⟨waveScale_of_ne_zero h0, fun _ hx => mem_le_find_highest_sample hx⟩

/-- C2 witness: the amended statement at the buffer `[1, 2]`. -/
theorem claim_C2_witness :
    (waveScale [1, 2] = EF.mk (fl (1 / find_highest_sample [1, 2]))) ∧
    (2:ℚ) ≤ find_highest_sample [1, 2] :=
  ⟨(claim_C2 [1, 2] (by simp) (by rw [fhs_12]; norm_num)).1,
   (claim_C2 [1, 2] (by simp) (by rw [fhs_12]; norm_num)).2 2 (by simp)⟩

/-- C3 counterexample: at `n = 22`, `w = 22`, `i = 13`, the f32 pixel
column is `12`, but `⌊w*i/n⌋ = 13`. -/
theorem counter_C3 :
    sampleX 22 22 13 = 12 ∧ (22 * 13) / 22 = 13 ∧
    sampleX 22 22 13 ≠ (((22 * 13) / 22 : ℕ) : ℤ) := by
  refine ⟨sampleX_22, by norm_num, ?_⟩
  rw [sampleX_22]
  norm_num

/-- C3 (amended): for `0 < n`, `w ≤ 2^24` and indices `i ≤ j ≤ n`, the
columns computed by `draw_wave` start at `0` for the first sample, are
nonnegative, monotonically non-decreasing, and bounded by `w`; they are
the truncated f32 computation and can differ from `⌊w*i/n⌋`
(see the counterexample). -/
theorem claim_C3 (n w i j : ℕ) (hn : 0 < n) (hw : w ≤ 2 ^ 24) (hij : i ≤ j)
    (hjn : j ≤ n) :
    sampleX w n 0 = 0 ∧ 0 ≤ sampleX w n i ∧
    sampleX w n i ≤ sampleX w n j ∧ sampleX w n j ≤ (w : ℤ) :=
  ⟨sampleX_zero hn, sampleX_nonneg hn (le_trans hij hjn) hw,
   sampleX_mono hn hw hij hjn, sampleX_le_w hn hjn hw⟩

/-- C3 witness: the amended statement at `n = w = 22`, `i = 13`,
`j = 22`. -/
theorem claim_C3_witness :
    sampleX 22 22 0 = 0 ∧ 0 ≤ sampleX 22 22 13 ∧
    sampleX 22 22 13 ≤ sampleX 22 22 22 ∧ sampleX 22 22 22 ≤ (22 : ℤ) :=
  claim_C3 22 22 13 22 (by norm_num) (by norm_num) (by norm_num) (by norm_num)

/-- C4 counterexample: for the buffer `[1/2, 7/2]`, size `2 × 4`, the
segment at the odd index `1` ends at row `1` (offset truncated toward
zero), while the claimed round-to-nearest endpoint would be row `0`. -/
theorem counter_C4 :
    (drawWave [1/2, 7/2] (waveScale [1/2, 7/2]) 2 4)[1]? =
      some { x := 1, y0 := 2, y1 := 1 } ∧
    round ((4 : ℚ)/2 - 4/2 * (7/2 * (1/4))) = 0 ∧ (1 : ℤ) ≠ 0 := by
  refine ⟨drawWave_cex, ?_, by norm_num⟩
  rw [round_eq, show (4 : ℚ)/2 - 4/2 * (7/2 * (1/4)) + 1/2 = 3/4 by norm_num,
    show ⌊(3/4 : ℚ)⌋ = 0 by rw [Int.floor_eq_iff]; norm_num]

/-- C4 (amended): the segment for index `i` starts at `(x, height/2)`
(integer division) and ends at the same column with vertical offset
`(height / 2.0 * v) as i32` added for even `i` and subtracted for odd
`i`; the f32-to-i32 cast truncates toward zero (it is the floor on
nonnegative values), not round-to-nearest. -/
theorem claim_C4 (sound : List ℚ) (ratio : EF) (w h i : ℕ) (s : ℚ)
    (hs : sound[i]? = some s) :
    ((drawWave sound ratio w h)[i]? =
      some { x := sampleX w sound.length i
             y0 := centerY h
             y1 := if i % 2 = 0 then centerY h + scaledOffset ratio h s
                   else centerY h - scaledOffset ratio h s }) ∧
    (∀ q : ℚ, 0 ≤ q → q < 2 ^ 31 → i32cast (.fin q) = ⌊q⌋) := by
  constructor
  · unfold drawWave
    rw [drawWaveAux_getElem ratio sound.length w h sound 0 i, hs]
    simp [segFor]
  · intro q h0 h31
    exact i32cast_fin h0 h31

/-- C4 witness: the amended statement at the buffer `[0]` and at
`q = 7/4` (whose cast truncates to `1`). -/
theorem claim_C4_witness :
    ((drawWave [(0:ℚ)] EF.nan 1 1)[0]? =
      some { x := sampleX 1 1 0
             y0 := centerY 1
             y1 := if 0 % 2 = 0 then centerY 1 + scaledOffset EF.nan 1 0
                   else centerY 1 - scaledOffset EF.nan 1 0 }) ∧
    i32cast (.fin (7/4 : ℚ)) = ⌊(7/4 : ℚ)⌋ :=
  ⟨(claim_C4 [(0:ℚ)] EF.nan 1 1 0 0 rfl).1,
   (claim_C4 [(0:ℚ)] EF.nan 1 1 0 0 rfl).2 (7/4) (by norm_num) (by norm_num)⟩

/-- C5 counterexample: for the buffer `[2]` on a `2 × 4` canvas the
computed end row is `4`, outside `[0, height-1] = [0, 3]`, and it is
handed to the drawing primitive unclamped. -/
theorem counter_C5 :
    (drawWave [(2:ℚ)] (waveScale [2]) 2 4)[0]? =
      some { x := 0, y0 := 2, y1 := 4 } ∧
    ¬((4:ℤ) ≤ 4 - 1) :=
  ⟨drawWave_two, by decide⟩

/-- C5 (amended): `draw_wave` itself performs no clamping (the
counterexample exhibits an out-of-range endpoint), but the drawing
primitive drops every out-of-range pixel, so rasterization never writes
outside the canvas: outside the bounds the canvas is unchanged. -/
theorem claim_C5 (w h : ℕ) (c : Color) (segs : List Segment)
    (canvas : ℤ → ℤ → Color) (x y : ℤ)
    (hout : ¬(0 ≤ x ∧ x < (w : ℤ) ∧ 0 ≤ y ∧ y < (h : ℤ))) :
    rasterize w h c segs canvas x y = canvas x y :=
  rasterize_out_of_bounds w h c segs canvas x y hout

/-- C5 witness: drawing the out-of-range segment of the counterexample
leaves the out-of-canvas pixel `(0, 4)` unchanged. -/
theorem claim_C5_witness :
    rasterize 2 4 { r := 255, g := 0, b := 0 } [{ x := 0, y0 := 2, y1 := 4 }]
      (fun _ _ => { r := 9, g := 9, b := 9 }) 0 4 = { r := 9, g := 9, b := 9 } :=
  claim_C5 2 4 { r := 255, g := 0, b := 0 } [{ x := 0, y0 := 2, y1 := 4 }]
    (fun _ _ => { r := 9, g := 9, b := 9 }) 0 4 (by decide)

/-- C6 counterexample: on the empty buffer the render succeeds and
silently produces a background-filled image — no error value exists in
the interface (`ViewSignal::new` is infallible). -/
theorem counter_C6 :
    (viewSignalNew [] 1 1 { r := 255, g := 0, b := 0 }
      { r := 7, g := 8, b := 9 }).isSome = true ∧
    (viewSignalNew [] 1 1 { r := 255, g := 0, b := 0 }
      { r := 7, g := 8, b := 9 }).map (fun canvas => canvas 0 0) =
      some { r := 7, g := 8, b := 9 } := by
  refine ⟨viewSignalNew_isSome _ _ _ _ _, ?_⟩
  apply emptyRender_pixel 1 1 _ _ 0 0 (by norm_num) (by norm_num) (by norm_num)
  rw [hEff_eq (by norm_num)]
  norm_num

/-- C6 (amended): on the empty buffer no `EmptyInputError` is reported;
the render succeeds, every in-bounds pixel is the background color (the
draw loop never runs), and the internally computed scale is `+inf`
(`1.0 / 0.0`), harmlessly unused. -/
theorem claim_C6 (w h : ℕ) (wc bc : Color) (x y : ℤ) (hx : 0 ≤ x)
    (hxw : x < (w : ℤ)) (hy : 0 ≤ y) (hyh : y < (hEff h : ℤ)) :
    (viewSignalNew [] w h wc bc).isSome = true ∧
    (viewSignalNew [] w h wc bc).map (fun canvas => canvas x y) = some bc ∧
    waveScale [] = EF.inf :=
  ⟨viewSignalNew_isSome _ _ _ _ _,
   emptyRender_pixel w h wc bc x y hx hxw hy hyh,
   waveScale_of_zero rfl⟩

/-- C6 witness: the amended statement at a `2 × 2` canvas and
pixel `(1, 1)`. -/
theorem claim_C6_witness :
    (viewSignalNew [] 2 2 { r := 1, g := 1, b := 1 }
      { r := 0, g := 0, b := 0 }).isSome = true ∧
    (viewSignalNew [] 2 2 { r := 1, g := 1, b := 1 }
      { r := 0, g := 0, b := 0 }).map (fun canvas => canvas 1 1) =
      some { r := 0, g := 0, b := 0 } ∧
    waveScale [] = EF.inf :=
  claim_C6 2 2 { r := 1, g := 1, b := 1 } { r := 0, g := 0, b := 0 } 1 1
    (by norm_num) (by norm_num) (by norm_num)
    (by rw [hEff_eq (by norm_num)]; norm_num)

/-- C7: on an all-zero buffer the render yields a defined, deterministic
fallback: the scale is `+inf`, each scaled sample is NaN, the NaN-to-0
saturating cast degenerates every segment to the single center-row point
`(x, height/2)` — a flat centerline — and every pixel coordinate is a
finite integer in the i32 range. -/
theorem claim_C7 (n w h : ℕ) (seg : Segment)
    (hseg : seg ∈ drawWave (List.replicate n 0)
      (waveScale (List.replicate n 0)) w h) :
    seg.y0 = centerY h ∧ seg.y1 = centerY h ∧
    -(2 ^ 31) ≤ seg.x ∧ seg.x ≤ 2 ^ 31 - 1 := by
  have hfhs : find_highest_sample (List.replicate n (0:ℚ)) = 0 :=
    find_highest_sample_of_nonpos
      (fun x hx => le_of_eq (List.eq_of_mem_replicate hx))
  rw [waveScale_of_zero hfhs] at hseg
  obtain ⟨j, s, hs, rfl⟩ := mem_drawWaveAux hseg
  have hs0 : s = 0 := List.eq_of_mem_replicate hs
  subst hs0
  refine ⟨rfl, ?_, (i32cast_range _).1, (i32cast_range _).2⟩
  show (if j % 2 = 0 then centerY h + scaledOffset EF.inf h 0
        else centerY h - scaledOffset EF.inf h 0) = centerY h
  rw [scaledOffset_inf_zero]
  split_ifs <;> omega

/-- C7 witness: the single segment of the all-zero one-sample render on
a `1 × 2` canvas is the degenerate center point. -/
theorem claim_C7_witness :
    ({ x := 0, y0 := 1, y1 := 1 } : Segment).y0 = centerY 2 ∧
    ({ x := 0, y0 := 1, y1 := 1 } : Segment).y1 = centerY 2 ∧
    -(2 ^ 31) ≤ ({ x := 0, y0 := 1, y1 := 1 } : Segment).x ∧
    ({ x := 0, y0 := 1, y1 := 1 } : Segment).x ≤ 2 ^ 31 - 1 :=
  claim_C7 1 1 2 { x := 0, y0 := 1, y1 := 1 } (by rw [drawWave_zeros]; simp)

/-- C8 counterexample: canvas creation with width `0` succeeds (an empty
image) instead of failing with an error. -/
theorem counter_C8 :
    (canvasCreate 0 5 { r := 0, g := 0, b := 0 }).isSome = true := by
  rw [canvasCreate_some]
  rfl

/-- C8 (amended): canvas creation never reports an error: for every
requested size, including zero dimensions, it yields a buffer of exactly
`width * effective_height * 3` background bytes (the internal `from_raw`
unwrap cannot fire; a `width*height` overflow would abort, not report). -/
theorem claim_C8 (w h : ℕ) (bc : Color) :
    (canvasCreate w h bc).isSome = true ∧
    (canvasCreate w h bc).map List.length = some (w * hEff h * 3) := by
  rw [canvasCreate_some]
  refine ⟨rfl, ?_⟩
  simp [fill3_length]

/-- C9: every in-bounds canvas pixel not on any drawn segment is exactly
the background color: the canvas is initialized uniformly to the
background and only the segment draws change it. -/
theorem claim_C9 (sound : List ℚ) (w h : ℕ) (wc bc : Color) (x y : ℤ)
    (hne : sound ≠ []) (hnz : ∃ s ∈ sound, s ≠ 0) (hx : 0 ≤ x)
    (hxw : x < (w : ℤ)) (hy : 0 ≤ y) (hyh : y < (hEff h : ℤ))
    (hseg : ∀ seg ∈ drawWave sound (waveScale sound) w h, ¬ covers seg x y) :
    (viewSignalNew sound w h wc bc).map (fun canvas => canvas x y) = some bc :=
  untouched_pixel_bg sound w h wc bc x y hx hxw hy hyh hseg

/-- C9 witness: rendering `[1]` on a `2 × 2` canvas leaves the untouched
pixel `(1, 0)` at the background color. -/
theorem claim_C9_witness :
    (viewSignalNew [(1:ℚ)] 2 2 { r := 255, g := 0, b := 0 }
      { r := 3, g := 4, b := 5 }).map (fun canvas => canvas 1 0) =
      some { r := 3, g := 4, b := 5 } :=
  claim_C9 [1] 2 2 { r := 255, g := 0, b := 0 } { r := 3, g := 4, b := 5 } 1 0
    (by simp) ⟨1, by simp, by norm_num⟩ (by norm_num) (by norm_num)
    (by norm_num) (by rw [hEff_eq (by norm_num)]; norm_num)
    (by rw [drawWave_one]; decide)

/-- C10: the accumulated highest is always nonnegative; samples that do
not strictly exceed the running value (in particular all non-positive
samples) never contribute, so an all-non-positive buffer yields
`highest = 0` and an infinite scale factor, even when the true peak
magnitude (e.g. of `[-1]`) is nonzero. -/
theorem claim_C10 :
    (∀ l : List ℚ, 0 ≤ find_highest_sample l) ∧
    (∀ l : List ℚ, (∀ x ∈ l, x ≤ 0) →
      find_highest_sample l = 0 ∧ waveScale l = EF.inf) ∧
    peak_amplitude [(-1 : ℚ)] ≠ 0 := by
  refine ⟨find_highest_sample_nonneg, ?_, ?_⟩
  · intro l hl
    have h := find_highest_sample_of_nonpos hl
    exact ⟨h, waveScale_of_zero h⟩
  · norm_num [peak_amplitude]

/-- C10 witness: the all-non-positive buffer `[-1]` yields highest `0`
and the infinite scale. -/
theorem claim_C10_witness :
    find_highest_sample [(-1 : ℚ)] = 0 ∧ waveScale [(-1 : ℚ)] = EF.inf :=
  claim_C10.2.1 [(-1 : ℚ)] (by simp)

end SoundWave
